import Mathlib

/-!
Verification of the annotations2clips segmentation and correlation engine.

The Python sources (`annotation_reader.py`, `video_processor.py`, `utils.py`)
are shallowly embedded below: float seconds become `ℚ`, Python dicts (which
preserve insertion order) become association lists `List (String × _)`,
`math.floor` becomes `Int.floor`, and the filesystem is abstracted as explicit
lists of directory and file paths.  Stateful methods become pure functions on
that data.
-/

namespace A2C

/-- A labeled time interval `(t_start, t_end)` in float seconds, modelled over `ℚ`. -/
abbrev Interval := ℚ × ℚ

/-- The `action_dict` of `AnnotationReader`: a Python dict label → list of
intervals, modelled as an insertion-ordered association list. -/
abbrev AnnotationSet := List (String × List Interval)

/-- One record of the annotation file's `metadata` section: `av1` is the coded
label value `entry["av"]["1"]`, `z` is the raw time-bounds array `entry["z"]`. -/
structure MetaRecord where
  av1 : String
  z : List ℚ
deriving DecidableEq

/-- Append a value into the list stored under key `a` of an insertion-ordered
dict, creating the key at the end if absent.  Mirrors the
`if k in d: d[k].append(x) else: d[k] = [x]` pattern used for `action_dict`
(annotation_reader.py lines 57-60) and for the per-video `clips` dict
(video_processor.py lines 229-232). -/
def dictAppend {β : Type} : List (String × List β) → String → β → List (String × List β)
  | [], a, x => [(a, [x])]
  | (k, vs) :: rest, a, x =>
    if k = a then (k, vs ++ [x]) :: rest else (k, vs) :: dictAppend rest a x

/-- Value stored under a key of an insertion-ordered dict (`[]` when absent). -/
def bucket {β : Type} : List (String × List β) → String → List β
  | [], _ => []
  | (k, vs) :: rest, a => if k = a then vs else bucket rest a

/-- Label resolution of annotation_reader.py lines 48-51:
`str(id_to_action_dict.get(entry["av"]["1"]))`.  Python's `dict.get` returns
`None` (it never raises, so the `except` branch is dead), and `str(None)` is
the string `"None"`; when the code is present, `str` of the stored name is the
name itself. -/
def resolveAction (table : List (String × String)) (code : String) : String :=
  match table.lookup code with
  | some name => name
  | none => "None"

/-- Processing of one metadata record (annotation_reader.py lines 45-62): the
record contributes `(z[0], z[1])` under its resolved label iff `len(z) == 2`. -/
def processRecord (table : List (String × String)) (d : AnnotationSet)
    (r : MetaRecord) : AnnotationSet :=
  match r.z with
  | [tStart, tEnd] => dictAppend d (resolveAction table r.av1) (tStart, tEnd)
  | _ => d

/-- `AnnotationReader.extract_annotations`: folds the metadata records over the
instance's accumulated `action_dict` `d` (a fresh reader starts from `[]`). -/
def extract_annotations (table : List (String × String)) (metadata : List MetaRecord)
    (d : AnnotationSet) : AnnotationSet :=
  metadata.foldl (processRecord table) d

/-- `n_chunks` of video_processor.py line 197: `floor(len_t_segment / clip_length)`. -/
def nChunks (t0 t1 clip : ℚ) : ℤ := ⌊(t1 - t0) / clip⌋

/-- The centering offset of video_processor.py lines 198-200:
`(len_t_segment - n_chunks * clip_length) / 2`. -/
def chunkOffset (t0 t1 clip : ℚ) : ℚ :=
  ((t1 - t0) - nChunks t0 t1 clip * clip) / 2

/-- The chunk loop of video_processor.py lines 201-233: starting at `tStart`,
each iteration emits the window `(t_start, t_start + clip)` and advances
`t_start = t_end`. -/
def chunkLoop : Nat → ℚ → ℚ → List (ℚ × ℚ)
  | 0, _, _ => []
  | n + 1, tStart, clip => (tStart, tStart + clip) :: chunkLoop n (tStart + clip) clip

/-- The sequence of clip windows `create_clips` produces for one interval:
`range(n_chunks)` iterations starting from the centered `t_start`
(video_processor.py lines 197-233).  A negative `n_chunks` gives an empty
`range`, modelled by `Int.toNat`. -/
def create_clips_windows (t0 t1 clip : ℚ) : List (ℚ × ℚ) :=
  chunkLoop (nChunks t0 t1 clip).toNat (t0 + chunkOffset t0 t1 clip) clip

/-- The amount `create_clips` adds to `stats_dict[action]` for one interval
(video_processor.py lines 234-237): always `n_chunks`, also when no window was
produced. -/
def statsDelta (t0 t1 clip : ℚ) : ℤ := nChunks t0 t1 clip

/-- Whether `create_clips` logs the short-segment warning for one interval
(video_processor.py line 193): `len_t_segment < clip_length`. -/
def shortWarning (t0 t1 clip : ℚ) : Bool := decide ((t1 - t0) < clip)

/-- Lexicographic comparison of code-point sequences.  For valid Unicode this
coincides with lexicographic comparison of the UTF-8 byte encodings, i.e. the
`key=lambda s: s.encode("utf-8")` ordering of video_processor.py lines 183 and 186. -/
def bytesLe : List Char → List Char → Bool
  | [], _ => true
  | _ :: _, [] => false
  | c :: cs, d :: ds =>
    if c.val < d.val then true
    else if d.val < c.val then false
    else bytesLe cs ds

/-- Byte-wise (UTF-8) string order used by `sorted(..., key=lambda s: s.encode("utf-8"))`. -/
def strLe (a b : String) : Bool := bytesLe a.data b.data

/-- Insert an element into a list sorted on a string key. -/
def insertOn {α : Type} (f : α → String) (x : α) : List α → List α
  | [] => [x]
  | y :: ys => if strLe (f x) (f y) then x :: y :: ys else y :: insertOn f x ys

/-- Insertion sort on a string key: the model of Python's
`sorted(..., key=lambda s: s.encode("utf-8"))` over lists with pairwise
distinct keys (dict keys are unique, so stability is irrelevant). -/
def sortOn {α : Type} (f : α → String) : List α → List α
  | [] => []
  | x :: xs => insertOn f x (sortOn f xs)

/-- `{n:03}` formatting: decimal digits left-padded with zeros to width 3. -/
def pad3 (n : Nat) : String :=
  let s := toString n
  if s.length < 3 then String.mk (List.replicate (3 - s.length) '0') ++ s else s

/-- `construct_video_filename` of utils.py lines 34-54. -/
def construct_video_filename (uid action : String) (actionIndex chunkIndex : Nat) : String :=
  uid ++ "_" ++ action ++ "_" ++ pad3 actionIndex ++ "_" ++ pad3 chunkIndex ++ ".mp4"

/-- The clip filenames `create_clips` emits for the intervals of one action of
one video, in emission order: intervals in `AnnotationSet` list order (their
position is the `action_index` maintained by `action_tracker_per_video`,
video_processor.py lines 188-191), chunks in `range(n_chunks)` order. -/
def clipsForAction (uid action : String) (clip : ℚ) (ivs : List Interval) : List String :=
  ivs.enum.flatMap (fun p =>
    (List.range (nChunks p.2.1 p.2.2 clip).toNat).map (fun ci =>
      construct_video_filename uid action p.1 ci))

/-- The pairs of one dict entry flattened to `(value, key)` records. -/
def groupPairs {β : Type} (g : String × List β) : List (β × String) :=
  g.2.map (fun x => (x, g.1))

/-- Flatten an insertion-ordered dict of lists into its `(value, key)` records
in stored order. -/
def flattenClips {β : Type} (d : List (String × List β)) : List (β × String) :=
  d.flatMap groupPairs

/-- The `(filename, action)` sequence of clips `create_clips` emits for one
video, in emission order: actions sorted byte-wise (video_processor.py line
186), then intervals in list order, then chunks in index order. -/
def emittedClips (uid : String) (annots : AnnotationSet) (clip : ℚ) :
    List (String × String) :=
  (sortOn id (annots.map Prod.fst)).flatMap (fun action =>
    groupPairs (action, clipsForAction uid action clip (bucket annots action)))

/-- The per-video `clips` dict `create_clips` builds (video_processor.py lines
229-232): each emitted clip filename is appended under its action key, in
emission order. -/
def clipsDict (uid : String) (annots : AnnotationSet) (clip : ℚ) :
    List (String × List String) :=
  (emittedClips uid annots clip).foldl (fun d p => dictAppend d p.2 p.1) []

/-- One line of `create_jsonl_file` (video_processor.py lines 266-268), built
exactly as the f-string
`{{"{video_key}:":"{clip_file}","{class_key}":"{action}"}}` concatenates its
pieces; note the colon emitted inside the first key's text. -/
def manifestLine (video_key class_key clip_file action : String) : String :=
  "\x7b\"" ++ video_key ++ ":\":\"" ++ clip_file ++ "\",\"" ++ class_key ++ "\":\""
    ++ action ++ "\"\x7d"

/-- A JSON string pair `"k":"v"`. -/
def jsonPair (k v : String) : String := "\"" ++ k ++ "\":\"" ++ v ++ "\""

/-- A two-member JSON object with string keys and values.  This is the record
shape the spec describes for manifest lines (one record per clip with the two
configured key names). -/
def jsonObj2 (k1 v1 k2 v2 : String) : String :=
  "\x7b" ++ jsonPair k1 v1 ++ "," ++ jsonPair k2 v2 ++ "\x7d"

/-- `create_jsonl_file` (video_processor.py lines 263-269): iterate the
`self.videos` dict in its own (discovery insertion) order, each video's
`clips` dict in its insertion order, each filename list in order. -/
def create_jsonl_lines (video_key class_key : String)
    (videos : List (String × List (String × List String))) : List String :=
  videos.flatMap (fun v => v.2.flatMap (fun ac =>
    ac.2.map (fun clip_file => manifestLine video_key class_key clip_file ac.1)))

/-- The `videos` registry after `create_clips` attached each video's `clips`
dict.  Attaching happens while iterating uids in sorted order, but the key
order of `self.videos` (discovery insertion order, the input list order here)
is unchanged by those assignments. -/
def processCorpusClips (videos : List (String × AnnotationSet)) (clip : ℚ) :
    List (String × List (String × List String)) :=
  videos.map (fun v => (v.1, clipsDict v.1 v.2 clip))

/-- The `(filename, action)` records the manifest serializes, in manifest
line order. -/
def manifestPairs (videos : List (String × AnnotationSet)) (clip : ℚ) :
    List (String × String) :=
  (processCorpusClips videos clip).flatMap (fun v => flattenClips v.2)

/-- The full manifest produced by running `create_clips` then
`create_jsonl_file` on a discovered registry (in discovery order). -/
def corpusManifest (videos : List (String × AnnotationSet)) (clip : ℚ)
    (video_key class_key : String) : List String :=
  create_jsonl_lines video_key class_key (processCorpusClips videos clip)

/-- The corpus-wide emission sequence of `create_clips`: uids sorted byte-wise
(video_processor.py line 183), within a uid the per-video emission order. -/
def emissionSequence (videos : List (String × AnnotationSet)) (clip : ℚ) :
    List (String × String) :=
  (sortOn Prod.fst videos).flatMap (fun v => emittedClips v.1 v.2 clip)

/-- The emission sequence rendered as manifest lines: what the manifest would
be if its lines appeared in the orchestrator's emission order. -/
def emissionLines (videos : List (String × AnnotationSet)) (clip : ℚ)
    (video_key class_key : String) : List String :=
  (emissionSequence videos clip).map (fun p => manifestLine video_key class_key p.1 p.2)

/-- `stats_dict[action] += n` with creation on first touch
(video_processor.py lines 234-237). -/
def statsAdd : List (String × ℤ) → String → ℤ → List (String × ℤ)
  | [], a, n => [(a, n)]
  | (k, v) :: rest, a, n =>
    if k = a then (k, v + n) :: rest else (k, v) :: statsAdd rest a n

/-- Value stored under a key of the stats dict, `none` when the key is absent. -/
def statsVal : List (String × ℤ) → String → Option ℤ
  | [], _ => none
  | (k, v) :: rest, a => if k = a then some v else statsVal rest a

/-- The `stats_dict` updates of `create_clips` contributed by one video:
actions sorted byte-wise, intervals in list order, each interval adding its
`n_chunks` to its action's entry. -/
def statsForVideo (clip : ℚ) (st : List (String × ℤ)) (v : String × AnnotationSet) :
    List (String × ℤ) :=
  (sortOn id (v.2.map Prod.fst)).foldl (fun st2 action =>
    (bucket v.2 action).foldl
      (fun st3 iv => statsAdd st3 action (nChunks iv.1 iv.2 clip)) st2) st

/-- The `stats_dict` returned by `create_clips`: videos iterated sorted by uid
byte-wise, starting from the empty dict. -/
def create_clips_stats (videos : List (String × AnnotationSet)) (clip : ℚ) :
    List (String × ℤ) :=
  (sortOn Prod.fst videos).foldl (statsForVideo clip) []

/-- The filesystem as seen by `discover_files`: the sets of existing
directories and files, each a path given by its components. -/
structure FileSystem where
  dirs : List (List String)
  files : List (List String)

/-- The pairing step of `discover_files` for one qualifying annotation file
(video_processor.py lines 104-113): if the sibling directory
`Path(item.parent, item.stem)` exists, the registry entry's `video_path` is
`Path(item.parent, item.stem, video_file_name)` — without checking that this
file exists; otherwise a warning is logged (second component `true`) and no
entry is created. -/
def pairAnnotationFile (fs : FileSystem) (parent : List String) (stem : String)
    (fname : String) : Option (List String) × Bool :=
  if (parent ++ [stem]) ∈ fs.dirs then (some (parent ++ [stem, fname]), false)
  else (none, true)

end A2C

namespace A2C

/- ### Basic dict lemmas -/

theorem bucket_dictAppend_same {β : Type} (d : List (String × List β)) (a : String) (x : β) :
    bucket (dictAppend d a x) a = bucket d a ++ [x] := by
  induction d with
  | nil => simp [dictAppend, bucket]
  | cons p rest ih =>
    obtain ⟨k, vs⟩ := p
    by_cases h : k = a
    · simp [dictAppend, bucket, h]
    · simp [dictAppend, bucket, h, ih]

theorem bucket_dictAppend_ne {β : Type} (d : List (String × List β)) (a b : String) (x : β)
    (h : b ≠ a) : bucket (dictAppend d a x) b = bucket d b := by
  have hab : a ≠ b := fun hh => h hh.symm
  induction d with
  | nil => simp [dictAppend, bucket, hab]
  | cons p rest ih =>
    obtain ⟨k, vs⟩ := p
    by_cases hk : k = a
    · subst hk
      have : k ≠ b := hab
      simp [dictAppend, bucket, this]
    · by_cases hb : k = b
      · subst hb
        simp [dictAppend, bucket, hk, hab.symm]
      · simp [dictAppend, bucket, hk, hb, ih]

theorem bucket_eq_nil_of_not_mem_keys {β : Type} (d : List (String × List β)) (a : String)
    (h : a ∉ d.map Prod.fst) : bucket d a = [] := by
  induction d with
  | nil => rfl
  | cons p rest ih =>
    obtain ⟨k, vs⟩ := p
    simp only [List.map_cons, List.mem_cons] at h
    push_neg at h
    have hk : k ≠ a := fun hh => h.1 hh.symm
    simp [bucket, hk, ih h.2]

theorem mem_keys_of_bucket_ne_nil {β : Type} (d : List (String × List β)) (a : String)
    (h : bucket d a ≠ []) : a ∈ d.map Prod.fst := by
  by_contra hmem
  exact h (bucket_eq_nil_of_not_mem_keys d a hmem)

/- ### Chunk loop lemmas -/

theorem chunkLoop_length (n : Nat) (t c : ℚ) : (chunkLoop n t c).length = n := by
  induction n generalizing t with
  | zero => rfl
  | succ m ih => simp [chunkLoop, ih]

theorem chunkLoop_get (n : Nat) (t c : ℚ) (k : Nat) (hk : k < (chunkLoop n t c).length) :
    (chunkLoop n t c).get ⟨k, hk⟩ = (t + k * c, t + (k + 1) * c) := by
  induction n generalizing t k with
  | zero => simp [chunkLoop] at hk
  | succ m ih =>
    cases k with
    | zero => simp [chunkLoop]
    | succ j =>
      have hj : j < (chunkLoop m (t + c) c).length := by
        simpa [chunkLoop_length] using hk
      have := ih (t + c) j hj
      simp only [chunkLoop, List.get_cons_succ]
      rw [this, Prod.mk.injEq]
      refine ⟨by push_cast; ring, by push_cast; ring⟩

theorem nChunks_nonneg (t0 t1 clip : ℚ) (hclip : 0 < clip) (hlen : clip ≤ t1 - t0) :
    0 ≤ nChunks t0 t1 clip := by
  have h0 : (0:ℚ) ≤ t1 - t0 := le_trans (le_of_lt hclip) hlen
  exact Int.floor_nonneg.mpr (div_nonneg h0 (le_of_lt hclip))

theorem nChunks_mul_le (t0 t1 clip : ℚ) (hclip : 0 < clip) :
    (nChunks t0 t1 clip : ℚ) * clip ≤ t1 - t0 := by
  have := Int.floor_le ((t1 - t0) / clip)
  calc (nChunks t0 t1 clip : ℚ) * clip ≤ ((t1 - t0) / clip) * clip := by
        exact mul_le_mul_of_nonneg_right this (le_of_lt hclip)
    _ = t1 - t0 := div_mul_cancel₀ _ (ne_of_gt hclip)

theorem chunkOffset_nonneg (t0 t1 clip : ℚ) (hclip : 0 < clip) :
    0 ≤ chunkOffset t0 t1 clip := by
  unfold chunkOffset
  have := nChunks_mul_le t0 t1 clip hclip
  linarith

/-- C1: for every interval with `duration = t1 - t0 ≥ clip` and `clip > 0`,
`create_clips` produces exactly `n = floor(duration / clip)` windows; window
`k` is `[t0 + offset + k * clip, t0 + offset + (k + 1) * clip)` with
`offset = (duration - n * clip) / 2`; consecutive windows tile exactly with no
gap or overlap; every window has length exactly `clip` and lies within
`[t0, t1)`. -/
theorem create_clips_windows_spec (t0 t1 clip : ℚ) (hclip : 0 < clip)
    (hlen : clip ≤ t1 - t0) :
    ((create_clips_windows t0 t1 clip).length : ℤ) = nChunks t0 t1 clip ∧
    (∀ k, ∀ hk : k < (create_clips_windows t0 t1 clip).length,
      (create_clips_windows t0 t1 clip).get ⟨k, hk⟩ =
        (t0 + chunkOffset t0 t1 clip + k * clip,
         t0 + chunkOffset t0 t1 clip + (k + 1) * clip)) ∧
    (∀ k, ∀ hk : k + 1 < (create_clips_windows t0 t1 clip).length,
      ((create_clips_windows t0 t1 clip).get ⟨k, Nat.lt_of_succ_lt hk⟩).2 =
        ((create_clips_windows t0 t1 clip).get ⟨k + 1, hk⟩).1) ∧
    (∀ w ∈ create_clips_windows t0 t1 clip,
      w.2 - w.1 = clip ∧ t0 ≤ w.1 ∧ w.2 ≤ t1) := by
  have hn0 : 0 ≤ nChunks t0 t1 clip := nChunks_nonneg t0 t1 clip hclip hlen
  have hlength : (create_clips_windows t0 t1 clip).length = (nChunks t0 t1 clip).toNat :=
    chunkLoop_length _ _ _
  have hget : ∀ k, ∀ hk : k < (create_clips_windows t0 t1 clip).length,
      (create_clips_windows t0 t1 clip).get ⟨k, hk⟩ =
        (t0 + chunkOffset t0 t1 clip + k * clip,
         t0 + chunkOffset t0 t1 clip + (k + 1) * clip) := by
    intro k hk
    exact chunkLoop_get (nChunks t0 t1 clip).toNat (t0 + chunkOffset t0 t1 clip) clip k hk
  have hoff : 0 ≤ chunkOffset t0 t1 clip := chunkOffset_nonneg t0 t1 clip hclip
  refine ⟨by rw [hlength, Int.toNat_of_nonneg hn0], hget, ?_, ?_⟩
  · intro k hk
    rw [hget k (Nat.lt_of_succ_lt hk), hget (k + 1) hk]
    push_cast
    ring
  · intro w hw
    obtain ⟨⟨k, hk⟩, hkw⟩ := List.mem_iff_get.mp hw
    rw [← hkw, hget k hk]
    have hk' : (k : ℤ) + 1 ≤ nChunks t0 t1 clip := by
      rw [hlength] at hk
      omega
    have hkq : (k : ℚ) + 1 ≤ ((nChunks t0 t1 clip : ℤ) : ℚ) := by exact_mod_cast hk'
    have h1 : ((k : ℚ) + 1) * clip ≤ (nChunks t0 t1 clip : ℚ) * clip :=
      mul_le_mul_of_nonneg_right hkq (le_of_lt hclip)
    have h2 : (nChunks t0 t1 clip : ℚ) * clip = (t1 - t0) - 2 * chunkOffset t0 t1 clip := by
      unfold chunkOffset
      ring
    have hkc : 0 ≤ (k : ℚ) * clip := mul_nonneg (Nat.cast_nonneg k) (le_of_lt hclip)
    refine ⟨by ring, by simp only []; linarith, by simp only []; linarith⟩

/-- Witness for C1 at the concrete interval `[0, 9)` with clip length 4:
both hypotheses hold and the window count is `floor(9 / 4) = 2`. -/
theorem create_clips_windows_spec_witness :
    (0:ℚ) < 4 ∧ (4:ℚ) ≤ 9 - 0 ∧
      ((create_clips_windows 0 9 4).length : ℤ) = nChunks 0 9 4 :=
  ⟨by norm_num, by norm_num,
    (create_clips_windows_spec 0 9 4 (by norm_num) (by norm_num)).1⟩

/- ### Short intervals (C3) -/

/-- C3 (amended): for every interval whose duration is nonnegative and
strictly below the clip length, `create_clips` produces zero windows, adds
zero to the label's stats entry, and logs the short-segment warning; the
per-interval processing is a total function, so the corpus run continues.
(For a negative duration the windows are still zero and the warning still
fires, but the stats contribution is the negative `floor(duration / clip)` —
see the counterexample.) -/
theorem short_interval_spec (t0 t1 clip : ℚ) (h0 : 0 ≤ t1 - t0) (h1 : t1 - t0 < clip) :
    create_clips_windows t0 t1 clip = [] ∧ statsDelta t0 t1 clip = 0 ∧
      shortWarning t0 t1 clip = true := by
  have hclip : 0 < clip := lt_of_le_of_lt h0 h1
  have hn : nChunks t0 t1 clip = 0 := by
    unfold nChunks
    rw [Int.floor_eq_zero_iff, Set.mem_Ico]
    constructor
    · exact div_nonneg h0 (le_of_lt hclip)
    · rw [div_lt_one hclip]
      linarith
  refine ⟨?_, hn, ?_⟩
  · unfold create_clips_windows
    rw [hn]
    rfl
  · simp [shortWarning, h1]

/-- Witness for C3 (amended) at the interval `[0, 2)` with clip length 4:
duration 2 is nonnegative and below 4, and zero windows are produced. -/
theorem short_interval_spec_witness :
    (0:ℚ) ≤ 2 - 0 ∧ (2:ℚ) - 0 < 4 ∧ create_clips_windows 0 2 4 = [] :=
  ⟨by norm_num, by norm_num, (short_interval_spec 0 2 4 (by norm_num) (by norm_num)).1⟩

/-- Counterexample to C3 as stated: the interval `(5, 3)` has duration
`-2 < 4 = clip_length`, produces zero windows and a warning, but its stats
contribution is `floor(-2 / 4) = -1`, not zero. -/
theorem short_interval_negative_stats_counterexample :
    (3:ℚ) - 5 < 4 ∧ create_clips_windows 5 3 4 = [] ∧ shortWarning 5 3 4 = true ∧
      statsDelta 5 3 4 = -1 ∧ ¬ statsDelta 5 3 4 = 0 := by
  have hn : nChunks 5 3 4 = -1 := by norm_num [nChunks]
  refine ⟨by norm_num, ?_, ?_, hn, by simp [statsDelta, hn]⟩
  · unfold create_clips_windows
    rw [hn]
    rfl
  · simp only [shortWarning, decide_eq_true_eq]
    norm_num

/- ### Annotation parser (C2, C4, C9, C10) -/

/-- C2 (code behavior at the failing input): with the label table built from
option list `1 → grey`, a record whose coded value `"7"` is absent from the
table is filed under the label `"None"` — the string Python's `str` renders
for the `None` that `dict.get` returns — and not under the raw coded value
`"7"` as the spec's fallback describes (the `except` branch of
annotation_reader.py lines 48-51 is unreachable because `dict.get` does not
raise). -/
theorem extract_annotations_unknown_code_yields_none_label :
    extract_annotations [("1", "grey")] [⟨"7", [1, 5]⟩] [] = [("None", [((1:ℚ), 5)])] ∧
      bucket (extract_annotations [("1", "grey")] [⟨"7", [1, 5]⟩] []) "7" = [] :=
  ⟨rfl, rfl⟩

/-- The interval one metadata record contributes to label `a`: its time pair
when the record has exactly two time values and resolves to `a`. -/
def recordContribution (table : List (String × String)) (a : String) (r : MetaRecord) :
    Option Interval :=
  match r.z with
  | [tStart, tEnd] => if resolveAction table r.av1 = a then some (tStart, tEnd) else none
  | _ => none

theorem bucket_processRecord (table : List (String × String)) (d : AnnotationSet)
    (r : MetaRecord) (a : String) :
    bucket (processRecord table d r) a =
      bucket d a ++ (recordContribution table a r).toList := by
  rcases hz : r.z with _ | ⟨x, tl⟩
  · simp [processRecord, recordContribution, hz]
  · rcases tl with _ | ⟨y, tl2⟩
    · simp [processRecord, recordContribution, hz]
    · rcases tl2 with _ | ⟨z, tl3⟩
      · by_cases h : resolveAction table r.av1 = a
        · simp [processRecord, recordContribution, hz, h, bucket_dictAppend_same]
        · have hne : a ≠ resolveAction table r.av1 := fun hh => h hh.symm
          simp [processRecord, recordContribution, hz, h,
            bucket_dictAppend_ne _ _ _ _ hne]
      · simp [processRecord, recordContribution, hz]

theorem bucket_extract_annotations (table : List (String × String)) (md : List MetaRecord)
    (d : AnnotationSet) (a : String) :
    bucket (extract_annotations table md d) a =
      bucket d a ++ md.filterMap (recordContribution table a) := by
  induction md generalizing d with
  | nil => simp [extract_annotations]
  | cons r rest ih =>
    simp only [extract_annotations, List.foldl_cons] at ih ⊢
    rw [ih (processRecord table d r), bucket_processRecord]
    rcases hc : recordContribution table a r with _ | iv <;>
      simp [List.filterMap_cons, hc]

/-- C4 (amended): the parser's only filter is the two-element arity check on
the raw time field — a record whose time field is exactly `[a, b]` always
contributes the interval `(a, b)` to its resolved label's list, with no
`end > start` validation, so intervals with `end ≤ start` can appear in the
returned AnnotationSet. -/
theorem extract_annotations_keeps_two_element_records (table : List (String × String))
    (pre post : List MetaRecord) (r : MetaRecord) (a b : ℚ) (hz : r.z = [a, b]) :
    (a, b) ∈ bucket (extract_annotations table (pre ++ r :: post) [])
      (resolveAction table r.av1) := by
  rw [bucket_extract_annotations table (pre ++ r :: post) [] (resolveAction table r.av1)]
  simp only [bucket, List.nil_append]
  rw [List.mem_filterMap]
  refine ⟨r, by simp, ?_⟩
  simp [recordContribution, hz]

/-- Witness for C4 (amended): a file with the single record
`av.1 = "a", z = [5, 3]` yields the interval `(5, 3)` (with `end ≤ start`)
under the resolved label. -/
theorem extract_annotations_keeps_two_element_records_witness :
    ((5:ℚ), (3:ℚ)) ∈ bucket
      (extract_annotations [("a", "run")] ([] ++ (⟨"a", [5, 3]⟩ : MetaRecord) :: []) [])
      (resolveAction [("a", "run")] (⟨"a", [5, 3]⟩ : MetaRecord).av1) :=
  extract_annotations_keeps_two_element_records [("a", "run")] [] [] ⟨"a", [5, 3]⟩ 5 3 rfl

/-- Counterexample to C4 as stated: the record with time field `[5, 3]`
(end `3 ≤ 5` start) is not dropped — the parse returns its interval `(5, 3)`
in the label's list. -/
theorem extract_annotations_keeps_reversed_interval :
    extract_annotations [("a", "run")] [⟨"a", [5, 3]⟩] [] = [("run", [((5:ℚ), 3)])] ∧
      (3:ℚ) ≤ 5 :=
  ⟨rfl, by norm_num⟩

/-- C9: `extract_annotations` appends into the instance's accumulated
`action_dict`, so a second call on the same reader doubles every label's
interval list; in particular the result of calling it twice differs from a
single fresh parse whenever the file has any interval. -/
theorem extract_annotations_not_idempotent :
    (∀ (table : List (String × String)) (md : List MetaRecord) (a : String),
      bucket (extract_annotations table md (extract_annotations table md [])) a =
        bucket (extract_annotations table md []) a ++
          bucket (extract_annotations table md []) a) ∧
    extract_annotations [("a", "run")] [⟨"a", [0, 1]⟩]
        (extract_annotations [("a", "run")] [⟨"a", [0, 1]⟩] []) ≠
      extract_annotations [("a", "run")] [⟨"a", [0, 1]⟩] [] := by
  constructor
  · intro table md a
    rw [bucket_extract_annotations table md (extract_annotations table md []) a]
    congr 1
    rw [bucket_extract_annotations table md [] a]
    simp [bucket]
  · decide

theorem dictAppend_values_ne_nil {β : Type} (d : List (String × List β)) (a : String)
    (x : β) (h : ∀ p ∈ d, p.2 ≠ []) : ∀ p ∈ dictAppend d a x, p.2 ≠ [] := by
  induction d with
  | nil =>
    intro p hp
    simp only [dictAppend, List.mem_singleton] at hp
    subst hp
    simp
  | cons q rest ih =>
    obtain ⟨k, vs⟩ := q
    intro p hp
    by_cases hk : k = a
    · simp only [dictAppend, if_pos hk, List.mem_cons] at hp
      rcases hp with hp | hp
      · subst hp
        simp
      · exact h p (List.mem_cons_of_mem _ hp)
    · simp only [dictAppend, if_neg hk, List.mem_cons] at hp
      rcases hp with hp | hp
      · subst hp
        exact h (k, vs) (List.mem_cons_self _ _)
      · exact ih (fun q hq => h q (List.mem_cons_of_mem _ hq)) p hp

theorem extract_annotations_values_ne_nil_aux (table : List (String × String))
    (md : List MetaRecord) (d : AnnotationSet) (h : ∀ p ∈ d, p.2 ≠ []) :
    ∀ p ∈ extract_annotations table md d, p.2 ≠ [] := by
  induction md generalizing d with
  | nil => exact h
  | cons r rest ih =>
    simp only [extract_annotations, List.foldl_cons] at ih ⊢
    apply ih
    rcases hz : r.z with _ | ⟨x, _ | ⟨y, _ | ⟨z, tl⟩⟩⟩ <;>
      simp only [processRecord, hz] <;>
      first
        | exact h
        | exact dictAppend_values_ne_nil d _ _ h

/-- C10: in every AnnotationSet returned by a fresh parse, every stored label
entry has a non-empty interval list — a label key is only ever inserted
together with its first interval. -/
theorem extract_annotations_buckets_nonempty (table : List (String × String))
    (md : List MetaRecord) (p : String × List Interval)
    (hp : p ∈ extract_annotations table md []) : p.2 ≠ [] :=
  extract_annotations_values_ne_nil_aux table md [] (by simp) p hp

/-- Witness for C10: the fresh parse of a one-record file contains the entry
`("run", [(0, 1)])`, whose interval list is non-empty. -/
theorem extract_annotations_buckets_nonempty_witness :
    (("run", [((0:ℚ), 1)]) : String × List Interval).2 ≠ [] :=
  extract_annotations_buckets_nonempty [("a", "run")] [⟨"a", [0, 1]⟩]
    ("run", [((0:ℚ), 1)]) (List.Mem.head _)

/- ### Discovery pairing (C5) -/

/-- C5 (amended): for a qualifying annotation file, a registry entry is
created if and only if the sibling directory (parent path plus the file's
stem) exists; the entry's video path joins the declared recording name onto
that directory without checking that the recording file itself exists, and
when the directory is absent the pairing is skipped with a warning and
without raising. -/
theorem pairAnnotationFile_spec (fs : FileSystem) (parent : List String) (stem fname : String) :
    ((pairAnnotationFile fs parent stem fname).1.isSome ↔ (parent ++ [stem]) ∈ fs.dirs) ∧
    ((parent ++ [stem]) ∉ fs.dirs → pairAnnotationFile fs parent stem fname = (none, true)) ∧
    ((parent ++ [stem]) ∈ fs.dirs →
      pairAnnotationFile fs parent stem fname = (some (parent ++ [stem, fname]), false)) := by
  unfold pairAnnotationFile
  by_cases h : (parent ++ [stem]) ∈ fs.dirs <;> simp [h]

/-- Witness for C5 (amended): on a filesystem holding just the directory
`r/a`, the annotation file `r/a.json` declaring recording `v.mp4` is paired
to the path `r/a/v.mp4`. -/
theorem pairAnnotationFile_spec_witness :
    pairAnnotationFile ⟨[["r", "a"]], []⟩ ["r"] "a" "v.mp4" = (some ["r", "a", "v.mp4"], false) :=
  (pairAnnotationFile_spec ⟨[["r", "a"]], []⟩ ["r"] "a" "v.mp4").2.2 (by decide)

/-- Counterexample to C5 as stated: on a filesystem where the sibling
directory `r/a` exists but contains no file at all, the entry is still
created (with video path `r/a/v.mp4`), although no file with the declared
recording name exists — the claim's "and contains a file with the declared
recording name" is not checked by the code. -/
theorem pairAnnotationFile_missing_recording_counterexample :
    (pairAnnotationFile ⟨[["r", "a"]], []⟩ ["r"] "a" "v.mp4").1 = some ["r", "a", "v.mp4"] ∧
      ["r", "a", "v.mp4"] ∉ (⟨[["r", "a"]], []⟩ : FileSystem).files := by
  decide

/- ### Manifest line format (C8) -/

theorem string_append_assoc (x y z : String) : x ++ y ++ z = x ++ (y ++ z) :=
  String.ext (by simp [String.data_append])

/-- Each manifest line is a two-member record whose first key text is the
configured video key followed by a literal colon. -/
theorem manifestLine_eq_jsonObj2 (vk ck f a : String) :
    manifestLine vk ck f a = jsonObj2 (vk ++ ":") f ck a := by
  have h1 : ("\x7b\"" : String) = "\x7b" ++ "\"" := by decide
  have h2 : (":\":\"" : String) = ":" ++ "\":\"" := by decide
  have h3 : ("\",\"" : String) = "\"" ++ "," ++ "\"" := by decide
  have h5 : ("\"\x7d" : String) = "\"" ++ "\x7d" := by decide
  unfold manifestLine jsonObj2 jsonPair
  rw [h1, h2, h3, h5]
  simp only [string_append_assoc]

/-- C8 (amended): every manifest line is a two-key record whose first key is
the configured `video_key` followed by a literal `:` (so `"image:"` under the
defaults) with the clip filename as its value, and whose second key is
exactly `class_key` with the action label as its value. -/
theorem manifestLine_keys (video_key class_key clip_file action : String) :
    manifestLine video_key class_key clip_file action =
      jsonObj2 (video_key ++ ":") clip_file class_key action :=
  manifestLine_eq_jsonObj2 video_key class_key clip_file action

/-- Counterexample to C8 as stated: under the default keys the emitted line
is `{"image:":"f.mp4","label":"blue"}`, not the record
`{"image":"f.mp4","label":"blue"}` whose two keys are exactly the configured
`video_key` and `class_key`. -/
theorem manifestLine_keys_counterexample :
    manifestLine "image" "label" "f.mp4" "blue" ≠ jsonObj2 "image" "f.mp4" "label" "blue" ∧
      manifestLine "image" "label" "f.mp4" "blue" = jsonObj2 "image:" "f.mp4" "label" "blue" := by
  constructor <;> decide

/- ### Sorting permutation lemmas -/

theorem insertOn_perm {α : Type} (f : α → String) (x : α) (l : List α) :
    List.Perm (insertOn f x l) (x :: l) := by
  induction l with
  | nil => exact List.Perm.refl _
  | cons y ys ih =>
    unfold insertOn
    by_cases h : strLe (f x) (f y) = true
    · rw [if_pos h]
    · rw [if_neg h]
      exact List.Perm.trans (List.Perm.cons y ih) (List.Perm.swap x y ys)

theorem sortOn_perm {α : Type} (f : α → String) (l : List α) :
    List.Perm (sortOn f l) l := by
  induction l with
  | nil => exact List.Perm.refl _
  | cons x xs ih =>
    exact List.Perm.trans (insertOn_perm f x (sortOn f xs)) (List.Perm.cons x ih)

theorem mem_sortOn {α : Type} (f : α → String) (l : List α) (x : α) :
    x ∈ sortOn f l ↔ x ∈ l :=
  (sortOn_perm f l).mem_iff

theorem nodup_sortOn {α : Type} (f : α → String) (l : List α) :
    (sortOn f l).Nodup ↔ l.Nodup :=
  (sortOn_perm f l).nodup_iff

/- ### Rebuilding the clips dict from the emission sequence (C6) -/

theorem dictAppend_of_not_mem_keys {β : Type} (d : List (String × List β)) (a : String)
    (x : β) (h : a ∉ d.map Prod.fst) : dictAppend d a x = d ++ [(a, [x])] := by
  induction d with
  | nil => rfl
  | cons q rest ih =>
    obtain ⟨k, vs⟩ := q
    simp only [List.map_cons, List.mem_cons] at h
    push_neg at h
    have hk : k ≠ a := fun hh => h.1 hh.symm
    simp [dictAppend, hk, ih h.2]

theorem dictAppend_append_last {β : Type} (d : List (String × List β)) (a : String)
    (vs : List β) (x : β) (h : a ∉ d.map Prod.fst) :
    dictAppend (d ++ [(a, vs)]) a x = d ++ [(a, vs ++ [x])] := by
  induction d with
  | nil => simp [dictAppend]
  | cons q rest ih =>
    obtain ⟨k, ws⟩ := q
    simp only [List.map_cons, List.mem_cons] at h
    push_neg at h
    have hk : k ≠ a := fun hh => h.1 hh.symm
    simp [dictAppend, hk, ih h.2]

theorem foldl_dictAppend_fill {β : Type} (files : List β) (d : List (String × List β))
    (a : String) (vs : List β) (h : a ∉ d.map Prod.fst) :
    files.foldl (fun acc x => dictAppend acc a x) (d ++ [(a, vs)]) =
      d ++ [(a, vs ++ files)] := by
  induction files generalizing vs with
  | nil => simp
  | cons f fs ih =>
    rw [List.foldl_cons, dictAppend_append_last d a vs f h, ih (vs ++ [f])]
    simp

theorem foldl_dictAppend_group {β : Type} (f : β) (fs : List β)
    (d : List (String × List β)) (a : String) (h : a ∉ d.map Prod.fst) :
    (f :: fs).foldl (fun acc x => dictAppend acc a x) d = d ++ [(a, f :: fs)] := by
  rw [List.foldl_cons, dictAppend_of_not_mem_keys d a f h, foldl_dictAppend_fill fs d a [f] h]
  simp

theorem flattenClips_append {β : Type} (d1 d2 : List (String × List β)) :
    flattenClips (d1 ++ d2) = flattenClips d1 ++ flattenClips d2 := by
  simp [flattenClips]

theorem flatMap_of_map {α β γ : Type} (l : List α) (f : α → β) (g : β → List γ) :
    (l.map f).flatMap g = l.flatMap (fun x => g (f x)) := by
  induction l with
  | nil => rfl
  | cons x xs ih => simp [ih]

/-- Folding `dictAppend` over a key-grouped `(value, key)` sequence with fresh,
pairwise-distinct keys rebuilds exactly the non-empty groups: flattening the
resulting dict recovers the original sequence. -/
theorem flattenClips_foldl_groups {β : Type} (groups : List (String × List β))
    (d : List (String × List β)) (hnd : (groups.map Prod.fst).Nodup)
    (habs : ∀ g ∈ groups, g.1 ∉ d.map Prod.fst) :
    flattenClips ((groups.flatMap groupPairs).foldl
        (fun acc p => dictAppend acc p.2 p.1) d) =
      flattenClips d ++ groups.flatMap groupPairs := by
  induction groups generalizing d with
  | nil => simp
  | cons g gs ih =>
    obtain ⟨a, files⟩ := g
    simp only [List.map_cons, List.nodup_cons] at hnd
    have ha : a ∉ d.map Prod.fst := habs (a, files) (List.mem_cons_self _ _)
    simp only [List.flatMap_cons, List.foldl_append]
    have hmapped : (groupPairs (a, files)).foldl (fun acc p => dictAppend acc p.2 p.1) d =
        files.foldl (fun acc x => dictAppend acc a x) d := by
      unfold groupPairs
      rw [List.foldl_map]
    cases files with
    | nil =>
      rw [hmapped]
      simp only [List.foldl_nil]
      rw [ih d hnd.2 (fun g hg => habs g (List.mem_cons_of_mem _ hg))]
      simp [groupPairs]
    | cons f fs =>
      rw [hmapped, foldl_dictAppend_group f fs d a ha]
      have habs' : ∀ g ∈ gs, g.1 ∉ (d ++ [(a, f :: fs)]).map Prod.fst := by
        intro g hg
        simp only [List.map_append, List.mem_append, List.map_cons, List.map_nil,
          List.mem_singleton]
        push_neg
        refine ⟨fun hh => habs g (List.mem_cons_of_mem _ hg) hh, ?_⟩
        intro hh
        exact hnd.1 (hh ▸ List.mem_map_of_mem Prod.fst hg)
      rw [ih (d ++ [(a, f :: fs)]) hnd.2 habs', flattenClips_append]
      simp [flattenClips, List.append_assoc]

/-- The per-video `clips` dict, flattened in its own stored order, is exactly
the per-video emission sequence (actions byte-sorted, intervals in list
order, chunks in index order). -/
theorem flattenClips_clipsDict (uid : String) (annots : AnnotationSet) (clip : ℚ)
    (hnd : (annots.map Prod.fst).Nodup) :
    flattenClips (clipsDict uid annots clip) = emittedClips uid annots clip := by
  unfold clipsDict
  have hemit : emittedClips uid annots clip =
      ((sortOn id (annots.map Prod.fst)).map
          (fun a => (a, clipsForAction uid a clip (bucket annots a)))).flatMap groupPairs := by
    rw [flatMap_of_map]
    rfl
  have hkeys : (((sortOn id (annots.map Prod.fst)).map
      (fun a => (a, clipsForAction uid a clip (bucket annots a)))).map Prod.fst).Nodup := by
    have hcomp : (Prod.fst ∘ fun a : String =>
        (a, clipsForAction uid a clip (bucket annots a))) = id := rfl
    rw [List.map_map, hcomp, List.map_id]
    exact (nodup_sortOn id (annots.map Prod.fst)).mpr hnd
  rw [hemit, flattenClips_foldl_groups _ [] hkeys (by simp)]
  rfl

theorem map_line_flattenClips {β γ : Type} (D : List (String × List β)) (h : β × String → γ) :
    (flattenClips D).map h = D.flatMap (fun ac => ac.2.map (fun x => h (x, ac.1))) := by
  induction D with
  | nil => rfl
  | cons ac rest ih =>
    unfold flattenClips at ih ⊢
    rw [List.flatMap_cons, List.map_append, ih, List.flatMap_cons]
    congr 1
    simp [groupPairs]

/-- C6 (amended): the manifest holds exactly one record per emitted clip, and
its lines appear uid-major in the registry's insertion (discovery) order —
not sorted by uid — with, inside each uid, labels byte-wise sorted, intervals
in AnnotationSet order and chunks in index order (the per-video emission
order of `create_clips`). -/
theorem corpusManifest_order (videos : List (String × AnnotationSet)) (clip : ℚ)
    (video_key class_key : String)
    (hnd : ∀ v ∈ videos, (v.2.map Prod.fst).Nodup) :
    corpusManifest videos clip video_key class_key =
      videos.flatMap (fun v =>
        (emittedClips v.1 v.2 clip).map
          (fun p => manifestLine video_key class_key p.1 p.2)) := by
  revert hnd
  induction videos with
  | nil => intro _; rfl
  | cons v vs ih =>
    intro hnd
    have hv : (v.2.map Prod.fst).Nodup := hnd v (List.mem_cons_self _ _)
    have hvs : ∀ w ∈ vs, (w.2.map Prod.fst).Nodup :=
      fun w hw => hnd w (List.mem_cons_of_mem _ hw)
    have ihvs := ih hvs
    unfold corpusManifest processCorpusClips create_jsonl_lines at ihvs ⊢
    rw [List.map_cons, List.flatMap_cons, List.flatMap_cons, ihvs]
    congr 1
    rw [← flattenClips_clipsDict v.1 v.2 clip hv, map_line_flattenClips]

/-- Witness for C6 (amended) on a one-video corpus: the manifest equals the
flattened per-video emission sequences in registry order. -/
theorem corpusManifest_order_witness :
    corpusManifest [("u", [("x", [((0:ℚ), 4)])])] 4 "image" "label" =
      [("u", [("x", [((0:ℚ), 4)])])].flatMap (fun v =>
        (emittedClips v.1 v.2 4).map (fun p => manifestLine "image" "label" p.1 p.2)) :=
  corpusManifest_order [("u", [("x", [((0:ℚ), 4)])])] 4 "image" "label" (by decide)

/-- Counterexample to C6 as stated: with discovery order `b` before `a`, the
manifest lists video `b`'s clip first, while the emission order of
`create_clips` (uids sorted byte-wise) emits video `a`'s clip first — the
manifest lines are not in the claimed uid-sorted emission order. -/
theorem corpusManifest_unsorted_uid_counterexample :
    corpusManifest [("b", [("x", [((0:ℚ), 4)])]), ("a", [("x", [((0:ℚ), 4)])])] 4
        "image" "label" =
      [manifestLine "image" "label" "b_x_000_000.mp4" "x",
       manifestLine "image" "label" "a_x_000_000.mp4" "x"] ∧
    emissionLines [("b", [("x", [((0:ℚ), 4)])]), ("a", [("x", [((0:ℚ), 4)])])] 4
        "image" "label" =
      [manifestLine "image" "label" "a_x_000_000.mp4" "x",
       manifestLine "image" "label" "b_x_000_000.mp4" "x"] ∧
    corpusManifest [("b", [("x", [((0:ℚ), 4)])]), ("a", [("x", [((0:ℚ), 4)])])] 4
        "image" "label" ≠
      emissionLines [("b", [("x", [((0:ℚ), 4)])]), ("a", [("x", [((0:ℚ), 4)])])] 4
        "image" "label" := by
  have h : nChunks 0 4 4 = 1 := by norm_num [nChunks]
  have hb : corpusManifest [("b", [("x", [((0:ℚ), 4)])]), ("a", [("x", [((0:ℚ), 4)])])] 4
      "image" "label" =
      [manifestLine "image" "label" "b_x_000_000.mp4" "x",
       manifestLine "image" "label" "a_x_000_000.mp4" "x"] := by
    simp [corpusManifest, create_jsonl_lines, processCorpusClips, clipsDict, emittedClips,
      sortOn, insertOn, clipsForAction, h, groupPairs, bucket, dictAppend, flattenClips]
    decide
  have he : emissionLines [("b", [("x", [((0:ℚ), 4)])]), ("a", [("x", [((0:ℚ), 4)])])] 4
      "image" "label" =
      [manifestLine "image" "label" "a_x_000_000.mp4" "x",
       manifestLine "image" "label" "b_x_000_000.mp4" "x"] := by
    simp [emissionLines, emissionSequence, sortOn, insertOn, emittedClips, clipsForAction, h,
      groupPairs, bucket, strLe, bytesLe]
    decide
  refine ⟨hb, he, ?_⟩
  rw [hb, he]
  decide

/- ### Stats dict lemmas (C7) -/

theorem statsVal_statsAdd_same (st : List (String × ℤ)) (a : String) (n : ℤ) :
    statsVal (statsAdd st a n) a = some ((statsVal st a).getD 0 + n) := by
  induction st with
  | nil => simp [statsAdd, statsVal]
  | cons q rest ih =>
    obtain ⟨k, v⟩ := q
    by_cases hk : k = a
    · simp [statsAdd, statsVal, hk]
    · simp [statsAdd, statsVal, hk, ih]

theorem statsVal_statsAdd_ne (st : List (String × ℤ)) (a b : String) (n : ℤ)
    (h : b ≠ a) : statsVal (statsAdd st a n) b = statsVal st b := by
  have hab : a ≠ b := fun hh => h hh.symm
  induction st with
  | nil => simp [statsAdd, statsVal, hab]
  | cons q rest ih =>
    obtain ⟨k, v⟩ := q
    by_cases hk : k = a
    · subst hk
      have : k ≠ b := hab
      simp [statsAdd, statsVal, this]
    · by_cases hb : k = b
      · subst hb
        simp [statsAdd, statsVal, hk]
      · simp [statsAdd, statsVal, hk, hb, ih]

/-- Sum of the `n_chunks` values of a list of intervals: the total that
`create_clips` adds to one label's stats entry for those intervals. -/
def intervalSum (ivs : List Interval) (clip : ℚ) : ℤ :=
  (ivs.map (fun iv => nChunks iv.1 iv.2 clip)).sum

theorem statsVal_foldIntervals_same (ivs : List Interval) (st : List (String × ℤ))
    (a : String) (clip : ℚ) (hne : ivs ≠ []) :
    statsVal (ivs.foldl (fun s iv => statsAdd s a (nChunks iv.1 iv.2 clip)) st) a =
      some ((statsVal st a).getD 0 + intervalSum ivs clip) := by
  induction ivs generalizing st with
  | nil => cases hne rfl
  | cons iv rest ih =>
    rw [List.foldl_cons]
    by_cases hr : rest = []
    · subst hr
      simp [intervalSum, statsVal_statsAdd_same]
    · rw [ih _ hr, statsVal_statsAdd_same]
      simp [intervalSum, add_assoc]

theorem statsVal_foldIntervals_ne (ivs : List Interval) (st : List (String × ℤ))
    (a b : String) (clip : ℚ) (h : b ≠ a) :
    statsVal (ivs.foldl (fun s iv => statsAdd s a (nChunks iv.1 iv.2 clip)) st) b =
      statsVal st b := by
  induction ivs generalizing st with
  | nil => rfl
  | cons iv rest ih => rw [List.foldl_cons, ih _, statsVal_statsAdd_ne _ _ _ _ h]

theorem statsVal_foldActions_of_not_mem (acts : List String) (annots : AnnotationSet)
    (st : List (String × ℤ)) (clip : ℚ) (label : String) (h : label ∉ acts) :
    statsVal (acts.foldl (fun st2 action => (bucket annots action).foldl
        (fun st3 iv => statsAdd st3 action (nChunks iv.1 iv.2 clip)) st2) st) label =
      statsVal st label := by
  induction acts generalizing st with
  | nil => rfl
  | cons a rest ih =>
    have hne : label ≠ a := fun hh => h (hh ▸ List.mem_cons_self _ _)
    rw [List.foldl_cons, ih _ (fun hh => h (List.mem_cons_of_mem _ hh)),
      statsVal_foldIntervals_ne _ _ _ _ _ hne]

theorem statsVal_foldActions (acts : List String) (annots : AnnotationSet)
    (st : List (String × ℤ)) (clip : ℚ) (label : String) (hnd : acts.Nodup) :
    statsVal (acts.foldl (fun st2 action => (bucket annots action).foldl
        (fun st3 iv => statsAdd st3 action (nChunks iv.1 iv.2 clip)) st2) st) label =
      if label ∈ acts ∧ bucket annots label ≠ [] then
        some ((statsVal st label).getD 0 + intervalSum (bucket annots label) clip)
      else statsVal st label := by
  induction acts generalizing st with
  | nil => simp
  | cons a rest ih =>
    rcases List.nodup_cons.mp hnd with ⟨hna, hndr⟩
    rw [List.foldl_cons]
    by_cases ha : a = label
    · subst ha
      by_cases hb : bucket annots a = []
      · rw [hb]
        simp only [List.foldl_nil]
        rw [ih st hndr]
        simp [hna, hb]
      · rw [statsVal_foldActions_of_not_mem rest annots _ clip a hna,
          statsVal_foldIntervals_same _ _ _ _ hb]
        simp [hb]
    · have hlab : label ≠ a := fun hh => ha hh.symm
      rw [ih _ hndr, statsVal_foldIntervals_ne _ _ _ _ _ hlab]
      by_cases hm : label ∈ rest ∧ bucket annots label ≠ []
      · have : label ∈ a :: rest ∧ bucket annots label ≠ [] :=
          ⟨List.mem_cons_of_mem _ hm.1, hm.2⟩
        rw [if_pos hm, if_pos this]
      · have : ¬(label ∈ a :: rest ∧ bucket annots label ≠ []) := by
          intro hc
          rcases List.mem_cons.mp hc.1 with hh | hh
          · exact hlab hh
          · exact hm ⟨hh, hc.2⟩
        rw [if_neg hm, if_neg this]

/-- Total stats contribution of one label over a list of videos: the sum over
each video of the `n_chunks` values of that label's intervals. -/
def labelTotal (videos : List (String × AnnotationSet)) (clip : ℚ) (label : String) : ℤ :=
  (videos.map (fun v => intervalSum (bucket v.2 label) clip)).sum

theorem statsVal_statsForVideo (clip : ℚ) (st : List (String × ℤ))
    (v : String × AnnotationSet) (label : String) (hv : (v.2.map Prod.fst).Nodup) :
    statsVal (statsForVideo clip st v) label =
      if bucket v.2 label ≠ [] then
        some ((statsVal st label).getD 0 + intervalSum (bucket v.2 label) clip)
      else statsVal st label := by
  unfold statsForVideo
  rw [statsVal_foldActions (sortOn id (v.2.map Prod.fst)) v.2 st clip label
    ((nodup_sortOn _ _).mpr hv)]
  by_cases hb : bucket v.2 label ≠ []
  · have hmem : label ∈ sortOn id (v.2.map Prod.fst) :=
      (mem_sortOn _ _ _).mpr (mem_keys_of_bucket_ne_nil _ _ hb)
    rw [if_pos ⟨hmem, hb⟩, if_pos hb]
  · rw [if_neg (fun hc => hb hc.2), if_neg hb]

theorem statsVal_foldVideos (vs : List (String × AnnotationSet)) (st : List (String × ℤ))
    (clip : ℚ) (label : String) (hnd : ∀ v ∈ vs, (v.2.map Prod.fst).Nodup) :
    statsVal (vs.foldl (statsForVideo clip) st) label =
      if ∃ v ∈ vs, bucket v.2 label ≠ [] then
        some ((statsVal st label).getD 0 + labelTotal vs clip label)
      else statsVal st label := by
  induction vs generalizing st with
  | nil => simp [labelTotal]
  | cons v rest ih =>
    have hv := hnd v (List.mem_cons_self _ _)
    have hrest := fun w hw => hnd w (List.mem_cons_of_mem v hw)
    rw [List.foldl_cons, ih _ hrest]
    have hsv := statsVal_statsForVideo clip st v label hv
    by_cases hb : bucket v.2 label ≠ []
    · rw [if_pos hb] at hsv
      have hex : ∃ w ∈ v :: rest, bucket w.2 label ≠ [] :=
        ⟨v, List.mem_cons_self _ _, hb⟩
      by_cases hr : ∃ w ∈ rest, bucket w.2 label ≠ []
      · rw [if_pos hr, if_pos hex, hsv]
        simp [labelTotal, add_assoc]
      · rw [if_neg hr, if_pos hex, hsv]
        have hzero : labelTotal rest clip label = 0 := by
          apply List.sum_eq_zero
          intro x hx
          rcases List.mem_map.mp hx with ⟨w, hw, hxw⟩
          push_neg at hr
          rw [← hxw, hr w hw]
          simp [intervalSum]
        have hsplit : labelTotal (v :: rest) clip label =
            intervalSum (bucket v.2 label) clip + labelTotal rest clip label := by
          simp [labelTotal]
        rw [hsplit, hzero, add_zero]
    · push_neg at hb
      rw [if_neg (by simp [hb] : ¬bucket v.2 label ≠ [])] at hsv
      rw [hsv]
      have hiff : (∃ w ∈ v :: rest, bucket w.2 label ≠ []) ↔
          (∃ w ∈ rest, bucket w.2 label ≠ []) := by
        constructor
        · rintro ⟨w, hw, hwb⟩
          rcases List.mem_cons.mp hw with hh | hh
          · exact absurd (hh ▸ hwb) (by simp [hb])
          · exact ⟨w, hh, hwb⟩
        · rintro ⟨w, hw, hwb⟩
          exact ⟨w, List.mem_cons_of_mem _ hw, hwb⟩
      have htot : labelTotal (v :: rest) clip label = labelTotal rest clip label := by
        simp [labelTotal, hb, intervalSum]
      by_cases hr : ∃ w ∈ rest, bucket w.2 label ≠ []
      · rw [if_pos hr, if_pos (hiff.mpr hr), htot]
      · rw [if_neg hr, if_neg (fun hc => hr (hiff.mp hc))]

theorem statsVal_create_clips_stats (videos : List (String × AnnotationSet)) (clip : ℚ)
    (label : String) (hnd : ∀ v ∈ videos, (v.2.map Prod.fst).Nodup) :
    statsVal (create_clips_stats videos clip) label =
      if ∃ v ∈ videos, bucket v.2 label ≠ [] then some (labelTotal videos clip label)
      else none := by
  unfold create_clips_stats
  have hnd' : ∀ v ∈ sortOn Prod.fst videos, (v.2.map Prod.fst).Nodup :=
    fun v hv => hnd v ((mem_sortOn _ _ _).mp hv)
  rw [statsVal_foldVideos _ [] clip label hnd']
  have hex : (∃ v ∈ sortOn Prod.fst videos, bucket v.2 label ≠ []) ↔
      (∃ v ∈ videos, bucket v.2 label ≠ []) := by
    constructor
    · rintro ⟨v, hv, hb⟩
      exact ⟨v, (mem_sortOn _ _ _).mp hv, hb⟩
    · rintro ⟨v, hv, hb⟩
      exact ⟨v, (mem_sortOn _ _ _).mpr hv, hb⟩
  have htot : labelTotal (sortOn Prod.fst videos) clip label =
      labelTotal videos clip label :=
    ((sortOn_perm Prod.fst videos).map _).sum_eq
  simp only [statsVal, Option.getD_none, zero_add]
  rw [htot]
  exact if_congr hex rfl rfl

/- ### Manifest label counts (C7) -/

theorem map_enumFrom_snd {α β : Type} (l : List α) (n : ℕ) (g : α → β) :
    (List.enumFrom n l).map (fun p => g p.2) = l.map g := by
  induction l generalizing n with
  | nil => rfl
  | cons x xs ih => simp [List.enumFrom, ih]

theorem map_enum_snd {α β : Type} (l : List α) (g : α → β) :
    l.enum.map (fun p => g p.2) = l.map g :=
  map_enumFrom_snd l 0 g

theorem length_clipsForAction (uid action : String) (clip : ℚ) (ivs : List Interval) :
    (clipsForAction uid action clip ivs).length =
      (ivs.map (fun iv => (nChunks iv.1 iv.2 clip).toNat)).sum := by
  unfold clipsForAction
  rw [List.length_flatMap]
  have hfun : (List.length ∘ fun p : ℕ × Interval =>
      (List.range (nChunks p.2.1 p.2.2 clip).toNat).map
        (fun ci => construct_video_filename uid action p.1 ci)) =
      fun p : ℕ × Interval => (nChunks p.2.1 p.2.2 clip).toNat := by
    funext p
    simp
  rw [hfun, map_enum_snd ivs (fun iv => (nChunks iv.1 iv.2 clip).toNat)]

theorem length_filter_label_groupPairs (a label : String) (files : List String) :
    ((groupPairs (a, files)).filter (fun p => p.2 = label)).length =
      if a = label then files.length else 0 := by
  unfold groupPairs
  induction files with
  | nil => simp
  | cons f fs ih =>
    by_cases ha : a = label
    · simp [ha] at ih ⊢
      omega
    · simp [ha] at ih ⊢

theorem length_filter_label_flatMap (acts : List String) (F : String → List String)
    (label : String) (hnd : acts.Nodup) :
    ((acts.flatMap (fun a => groupPairs (a, F a))).filter
        (fun p : String × String => p.2 = label)).length =
      if label ∈ acts then (F label).length else 0 := by
  induction acts with
  | nil => simp
  | cons a rest ih =>
    rcases List.nodup_cons.mp hnd with ⟨hna, hndr⟩
    rw [List.flatMap_cons, List.filter_append, List.length_append, ih hndr,
      length_filter_label_groupPairs]
    by_cases ha : a = label
    · subst ha
      simp [hna]
    · have : (label ∈ a :: rest) ↔ (label ∈ rest) := by
        rw [List.mem_cons]
        constructor
        · rintro (hh | hh)
          · exact absurd hh.symm ha
          · exact hh
        · exact fun hh => Or.inr hh
      rw [if_neg ha, if_congr this rfl rfl]
      simp

theorem count_label_emittedClips (uid : String) (annots : AnnotationSet) (clip : ℚ)
    (label : String) (hnd : (annots.map Prod.fst).Nodup) :
    ((emittedClips uid annots clip).filter (fun p => p.2 = label)).length =
      (clipsForAction uid label clip (bucket annots label)).length := by
  unfold emittedClips
  rw [length_filter_label_flatMap (sortOn id (annots.map Prod.fst))
    (fun a => clipsForAction uid a clip (bucket annots a)) label
    ((nodup_sortOn _ _).mpr hnd)]
  by_cases h : label ∈ sortOn id (annots.map Prod.fst)
  · rw [if_pos h]
  · rw [if_neg h]
    have hb : bucket annots label = [] :=
      bucket_eq_nil_of_not_mem_keys _ _ (fun hh => h ((mem_sortOn _ _ _).mpr hh))
    rw [hb]
    rfl

theorem count_label_manifestPairs (videos : List (String × AnnotationSet)) (clip : ℚ)
    (label : String) (hnd : ∀ v ∈ videos, (v.2.map Prod.fst).Nodup) :
    ((manifestPairs videos clip).filter (fun p => p.2 = label)).length =
      (videos.map
        (fun v => (clipsForAction v.1 label clip (bucket v.2 label)).length)).sum := by
  induction videos with
  | nil => rfl
  | cons v rest ih =>
    have hv := hnd v (List.mem_cons_self _ _)
    have hrest := fun w hw => hnd w (List.mem_cons_of_mem v hw)
    unfold manifestPairs processCorpusClips at ih ⊢
    rw [List.map_cons, List.flatMap_cons, List.filter_append, List.length_append, ih hrest,
      List.map_cons, List.sum_cons]
    congr 1
    rw [show ((v.1, clipsDict v.1 v.2 clip).2 : List (String × List String)) =
        clipsDict v.1 v.2 clip from rfl,
      flattenClips_clipsDict v.1 v.2 clip hv,
      count_label_emittedClips v.1 v.2 clip label hv]

/- ### Relating stats totals to manifest counts (C7) -/

theorem exists_entry_of_mem_bucket {β : Type} (d : List (String × List β)) (a : String)
    (x : β) (hx : x ∈ bucket d a) : ∃ p ∈ d, x ∈ p.2 := by
  induction d with
  | nil => simp [bucket] at hx
  | cons q rest ih =>
    obtain ⟨k, vs⟩ := q
    by_cases hk : k = a
    · refine ⟨(k, vs), List.mem_cons_self _ _, ?_⟩
      rw [bucket, if_pos hk] at hx
      exact hx
    · rw [bucket, if_neg hk] at hx
      obtain ⟨p, hp, hxp⟩ := ih hx
      exact ⟨p, List.mem_cons_of_mem _ hp, hxp⟩

theorem intervalSum_eq_toNat_sum (ivs : List Interval) (clip : ℚ) (hclip : 0 < clip)
    (h : ∀ iv ∈ ivs, iv.1 ≤ iv.2) :
    intervalSum ivs clip =
      ((ivs.map (fun iv => (nChunks iv.1 iv.2 clip).toNat)).sum : ℤ) := by
  induction ivs with
  | nil => simp [intervalSum]
  | cons iv rest ih =>
    have h0 : 0 ≤ nChunks iv.1 iv.2 clip := by
      unfold nChunks
      refine Int.floor_nonneg.mpr (div_nonneg ?_ (le_of_lt hclip))
      have := h iv (List.mem_cons_self _ _)
      linarith
    have hrest := ih (fun i hi => h i (List.mem_cons_of_mem _ hi))
    simp only [intervalSum, List.map_cons, List.sum_cons] at hrest ⊢
    rw [hrest]
    push_cast [Int.toNat_of_nonneg h0]
    ring

theorem labelTotal_eq_count (videos : List (String × AnnotationSet)) (clip : ℚ)
    (label : String) (hclip : 0 < clip)
    (hnn : ∀ v ∈ videos, ∀ p ∈ v.2, ∀ iv ∈ p.2, iv.1 ≤ iv.2) :
    labelTotal videos clip label =
      ((videos.map
        (fun v => (clipsForAction v.1 label clip (bucket v.2 label)).length)).sum : ℤ) := by
  induction videos with
  | nil => simp [labelTotal]
  | cons v rest ih =>
    have hv : ∀ iv ∈ bucket v.2 label, iv.1 ≤ iv.2 := by
      intro iv hiv
      obtain ⟨p, hp, hivp⟩ := exists_entry_of_mem_bucket v.2 label iv hiv
      exact hnn v (List.mem_cons_self _ _) p hp iv hivp
    have hrest := ih (fun w hw => hnn w (List.mem_cons_of_mem _ hw))
    simp only [labelTotal, List.map_cons, List.sum_cons] at hrest ⊢
    rw [hrest, intervalSum_eq_toNat_sum (bucket v.2 label) clip hclip hv,
      length_clipsForAction]
    push_cast
    ring

/-- C7 (amended): provided each video's annotation dict has distinct keys and
every parsed interval has `end ≥ start` (the parser does not enforce the
latter), a label has a stats entry iff some video has at least one parsed
interval for it — so labels whose windows were all skipped still appear, with
value 0 — and every stats value equals the number of manifest records
carrying that label.  (With a negative-duration interval the stats value can
go below the manifest count — see the counterexample.) -/
theorem create_clips_stats_spec (videos : List (String × AnnotationSet)) (clip : ℚ)
    (label : String) (hclip : 0 < clip)
    (hnd : ∀ v ∈ videos, (v.2.map Prod.fst).Nodup)
    (hnn : ∀ v ∈ videos, ∀ p ∈ v.2, ∀ iv ∈ p.2, iv.1 ≤ iv.2) :
    (statsVal (create_clips_stats videos clip) label ≠ none ↔
      ∃ v ∈ videos, bucket v.2 label ≠ []) ∧
    ∀ n, statsVal (create_clips_stats videos clip) label = some n →
      n = (((manifestPairs videos clip).filter (fun p => p.2 = label)).length : ℤ) := by
  rw [statsVal_create_clips_stats videos clip label hnd]
  constructor
  · by_cases h : ∃ v ∈ videos, bucket v.2 label ≠ []
    · simp [h]
    · simp [h]
  · intro n hn
    by_cases h : ∃ v ∈ videos, bucket v.2 label ≠ []
    · rw [if_pos h] at hn
      injection hn with hn'
      rw [count_label_manifestPairs videos clip label hnd, ← hn']
      exact labelTotal_eq_count videos clip label hclip hnn
    · rw [if_neg h] at hn
      exact absurd hn (by simp)

/-- Witness for C7 (amended) on a one-video corpus with one interval `[0, 4)`
of label `x` and clip length 4: all three hypotheses hold and the stats key
for `x` exists exactly because `x` has a parsed interval. -/
theorem create_clips_stats_spec_witness :
    (0:ℚ) < 4 ∧
      (statsVal (create_clips_stats [("u", [("x", [((0:ℚ), 4)])])] 4) "x" ≠ none ↔
        ∃ v ∈ ([("u", [("x", [((0:ℚ), 4)])])] : List (String × AnnotationSet)),
          bucket v.2 "x" ≠ []) :=
  ⟨by norm_num,
    (create_clips_stats_spec [("u", [("x", [((0:ℚ), 4)])])] 4 "x" (by norm_num)
      (by decide) (by decide)).1⟩

/-- Counterexample to C7 as stated: a corpus whose only interval is `(5, 3)`
(negative duration, kept by the parser) yields `CorpusStats["x"] = -1` while
the manifest has zero lines with label `x`, so the stats value does not equal
the manifest line count. -/
theorem create_clips_stats_negative_counterexample :
    statsVal (create_clips_stats [("u", [("x", [((5:ℚ), 3)])])] 4) "x" = some (-1) ∧
    ((manifestPairs [("u", [("x", [((5:ℚ), 3)])])] 4).filter
        (fun p => p.2 = "x")).length = 0 ∧
    ¬∀ n, statsVal (create_clips_stats [("u", [("x", [((5:ℚ), 3)])])] 4) "x" = some n →
      n = (((manifestPairs [("u", [("x", [((5:ℚ), 3)])])] 4).filter
        (fun p => p.2 = "x")).length : ℤ) := by
  have h : nChunks 5 3 4 = -1 := by norm_num [nChunks]
  have h1 : statsVal (create_clips_stats [("u", [("x", [((5:ℚ), 3)])])] 4) "x" =
      some (-1) := by
    simp [create_clips_stats, sortOn, insertOn, statsForVideo, bucket, statsAdd,
      statsVal, h]
  have h2 : ((manifestPairs [("u", [("x", [((5:ℚ), 3)])])] 4).filter
      (fun p => p.2 = "x")).length = 0 := by
    simp [manifestPairs, processCorpusClips, clipsDict, emittedClips, sortOn, insertOn,
      clipsForAction, h, groupPairs, bucket, flattenClips]
  refine ⟨h1, h2, ?_⟩
  intro hall
  have := hall (-1) h1
  rw [h2] at this
  norm_num at this

end A2C
